import Mathlib

/-!
# prometheus-minimum-viable-sd: the collector's store, gate and output writer

A shallow embedding of `main.go`: the data types `serviceSpec` and
`serviceAnnouncement`, the announcement map owned by `collect`, the two
branches of its `select` loop, the startup code that precedes the loop, and
`writeOutputFile` together with the part of `encoding/json` it calls.

Conventions of the embedding.

* A Go slice or map value is either `nil` or holds elements; the difference is
  observable through `json.Marshal`, so it is kept (`Slice`, `StringMap`).
* `time.Time` values are integers: nanoseconds on the process's monotonic
  clock, which is what `Before` compares for values that come from
  `time.Now()`.
* `map[string]serviceAnnouncement` is an association list with one entry per
  key. Go leaves the iteration order of `range` open, so every function that
  ranges over the map takes the sequence `iter` that the range statement
  yields, and the transition relation `Step` admits every permutation of the
  map's entries for it.
* The file system is the content of the output file; every effect of
  `collect` on the outside world is appended to a trace.
* `must` ends the process on an error; the executions described here are the
  ones in which no I/O call fails. `debug` logging has no effect on the state
  and is left out.
-/

namespace SD

/-! ## Go values -/

/-- A Go slice as the program observes it: the nil slice, or a non-nil slice
with its elements. -/
inductive Slice (α : Type) where
  | nil : Slice α
  | mk (elems : List α) : Slice α
deriving DecidableEq, Repr

/-- The elements of a slice (none for the nil slice). -/
def Slice.toList {α : Type} : Slice α → List α
  | .nil => []
  | .mk l => l

/-- Go's `append(s, t...)`: when `t` has no element the capacity of `s`
suffices and `s` itself is returned (a nil `s` stays nil); otherwise the
result is a non-nil slice holding the elements of both. -/
def goAppend {α : Type} (s t : Slice α) : Slice α :=
  match t.toList with
  | [] => s
  | x :: xs => .mk (s.toList ++ x :: xs)

/-- A Go `map[string]string`: the nil map, or a map with its entries. -/
inductive StringMap where
  | nil : StringMap
  | mk (entries : List (String × String)) : StringMap
deriving DecidableEq, Repr

/-- The Go struct `serviceSpec` (main.go, line 63). -/
structure serviceSpec where
  Targets : Slice String
  Labels : StringMap
deriving DecidableEq, Repr

/-- The Go struct `serviceAnnouncement` (main.go, line 68). -/
structure serviceAnnouncement where
  SourceHost : String
  ReceivedAt : Int
  Services : Slice serviceSpec
deriving DecidableEq, Repr

/-- The constant `time.Second`, in nanoseconds. -/
def Second : Int := 1000000000

/-- The constant `time.Minute`. -/
def Minute : Int := 60 * Second

/-! ## The part of `encoding/json` used by `writeOutputFile` -/

/-- One hexadecimal digit, as in Go's `hex` table. -/
def hexDigit (n : Nat) : Char :=
  "0123456789abcdef".data.getD n '0'

/-- The characters `encodeState.string` emits for one character of a string,
with HTML escaping on (the default of `json.Marshal`), as in the Go releases
of the time of the program (later releases shorten the escapes of backspace
and form feed). -/
def escapeChar (c : Char) : List Char :=
  if c = '\\' then ['\\', '\\']
  else if c = '"' then ['\\', '"']
  else if c = '\n' then ['\\', 'n']
  else if c = '\r' then ['\\', 'r']
  else if c = '\t' then ['\\', 't']
  else if c.toNat < 32 ∨ c = '<' ∨ c = '>' ∨ c = '&' then
    ['\\', 'u', '0', '0', hexDigit (c.toNat / 16), hexDigit (c.toNat % 16)]
  else if c.toNat = 8232 then ['\\', 'u', '2', '0', '2', '8']
  else if c.toNat = 8233 then ['\\', 'u', '2', '0', '2', '9']
  else [c]

/-- JSON encoding of a Go string. -/
def encodeString (s : String) : List Char :=
  '"' :: (s.data.flatMap escapeChar ++ ['"'])

/-- Elements separated by commas. -/
def commaSep : List (List Char) → List Char
  | [] => []
  | [x] => x
  | x :: y :: rest => x ++ ',' :: commaSep (y :: rest)

/-- JSON encoding of a `[]string`: `null` for the nil slice, else an array. -/
def encodeTargets : Slice String → List Char
  | .nil => "null".data
  | .mk l => '[' :: (commaSep (l.map encodeString) ++ [']'])

/-- One `"key":"value"` member of an encoded map. -/
def encodeMember (kv : String × String) : List Char :=
  encodeString kv.1 ++ ':' :: encodeString kv.2

/-- JSON encoding of a `map[string]string`: `null` for the nil map, else an
object whose members are sorted by key. -/
def encodeLabels : StringMap → List Char
  | .nil => "null".data
  | .mk l =>
    '{' :: (commaSep ((l.insertionSort (fun a b => a.1 ≤ b.1)).map encodeMember) ++ ['}'])

/-- JSON encoding of a `serviceSpec`, fields in declaration order under their
`json:` names. -/
def encodeServiceSpec (sp : serviceSpec) : List Char :=
  "\x7b\"targets\":".data ++ encodeTargets sp.Targets ++ ",\"labels\":".data
    ++ encodeLabels sp.Labels ++ ['}']

/-- The call `json.Marshal(allServices)` for `allServices : []serviceSpec`:
a nil slice encodes as the JSON value `null`, any other slice as an array. -/
def jsonMarshal : Slice serviceSpec → String
  | .nil => "null"
  | .mk l => String.mk ('[' :: (commaSep (l.map encodeServiceSpec) ++ [']']))

/-! ## The announcement map -/

/-- The Go type `map[string]serviceAnnouncement`: one entry per key. -/
abbrev Store := List (String × serviceAnnouncement)

/-- Every key occurs once: the well-formedness of the association list. -/
def WF (m : Store) : Prop := (m.map Prod.fst).Nodup

/-- The map read `m[k]` with its presence flag. -/
def mapLookup : Store → String → Option serviceAnnouncement
  | [], _ => none
  | (k', v) :: rest, k => if k' = k then some v else mapLookup rest k

/-- The map assignment `m[k] = v`: the entry of `k` is replaced as a whole, or
created when the key is new. -/
def mapAssign : Store → String → serviceAnnouncement → Store
  | [], k, v => [(k, v)]
  | (k', v') :: rest, k, v =>
    if k' = k then (k, v) :: rest else (k', v') :: mapAssign rest k v

/-- The builtin `delete(m, k)`. -/
def mapDelete (m : Store) (k : String) : Store :=
  m.filter (fun kv => decide (kv.1 ≠ k))

/-! ## The world `collect` acts on -/

/-- The effects of `collect` on its environment, in program order. -/
inductive Effect where
  | mkdirAll : Effect
  | writeFile (data : String) : Effect
  | goListen : Effect
deriving DecidableEq, Repr

/-- What `os.Stat(outputFile)` reports at startup. -/
inductive StatResult where
  | ok : StatResult
  | notExist : StatResult
  | otherError : StatResult
deriving DecidableEq, Repr

/-- The variables of `collect` and the world it acts on: the gate
`canWriteOutputFile`, the map `announcements`, the content of the output file
(`none` while there is no such file) and the trace of effects so far. -/
structure State where
  canWriteOutputFile : Bool
  announcements : Store
  outputFile : Option String
  trace : List Effect
deriving DecidableEq, Repr

/-- The call `ioutil.WriteFile(outputFile, data, 0666)`: the file is truncated
and holds `data` afterwards. -/
def ioutilWriteFile (s : State) (data : String) : State :=
  { s with outputFile := some data, trace := s.trace ++ [Effect.writeFile data] }

/-- The contents of all `ioutil.WriteFile` calls of a trace, oldest first. -/
def writesOf : List Effect → List String
  | [] => []
  | Effect.writeFile d :: rest => d :: writesOf rest
  | _ :: rest => writesOf rest

/-! ## `writeOutputFile` (main.go, lines 181-192) -/

/-- The slice `allServices` after the loop of `writeOutputFile` has run over
the entries `iter` yielded by `range announcements`: it starts as the nil
slice and each record's `Services` is appended. -/
def allServices (iter : List (String × serviceAnnouncement)) : Slice serviceSpec :=
  iter.foldl (fun acc kv => goAppend acc kv.2.Services) Slice.nil

/-- The function `writeOutputFile`, for the iteration sequence `iter` of its
map argument: marshal `allServices` and overwrite the output file. -/
def writeOutputFile (iter : List (String × serviceAnnouncement)) (s : State) : State :=
  ioutilWriteFile s (jsonMarshal (allServices iter))

/-! ## `collect` (main.go, lines 103-158) -/

/-- The code of `collect` before its loop (lines 113-132): the gate starts
closed, the parent directory is created, and when `os.Stat` reports that the
output file does not exist the file is initialised with the bytes `[]` and
the gate is opened; then the listener goroutine is started and the map is
created empty. `file` is the content of the output file before startup. -/
def collectInit (stat : StatResult) (file : Option String) : State :=
  let s0 : State :=
    { canWriteOutputFile := false, announcements := [], outputFile := file,
      trace := [Effect.mkdirAll] }
  let s1 : State :=
    if stat = StatResult.notExist then
      { ioutilWriteFile s0 "[]" with canWriteOutputFile := true }
    else s0
  { s1 with trace := s1.trace ++ [Effect.goListen] }

/-- The events the `select` statement of `collect` waits for: an announcement
taken from the channel, or a tick; a tick carries the value `time.Now()`
returns in its handler. -/
inductive Event where
  | announcement (a : serviceAnnouncement) : Event
  | tick (now : Int) : Event
deriving DecidableEq, Repr

/-- The branch `case announcement := <-c` (lines 135-142); `iter` is what
`range` yields inside `writeOutputFile`, if it is called. -/
def onAnnouncement (iter : List (String × serviceAnnouncement)) (s : State)
    (announcement : serviceAnnouncement) : State :=
  let s1 : State :=
    { s with announcements := mapAssign s.announcements announcement.SourceHost announcement }
  if s1.canWriteOutputFile then writeOutputFile iter s1 else s1

/-- The garbage-collection loop (lines 147-154) over the entries `iter`
yielded by `range announcements`: an entry received before `minReceivedAt`
has its host deleted from the map. -/
def gcLoop (minReceivedAt : Int) (iter : List (String × serviceAnnouncement))
    (m : Store) : Store :=
  iter.foldl (fun acc kv => if kv.2.ReceivedAt < minReceivedAt then mapDelete acc kv.1 else acc) m

/-- The branch `case <-tick` (lines 143-155); `iterGc` is the iteration
sequence of the garbage-collection loop, `iterW` the one inside
`writeOutputFile`. -/
def onTick (iterGc iterW : List (String × serviceAnnouncement)) (s : State)
    (now : Int) : State :=
  let s1 : State := { s with canWriteOutputFile := true }
  let minReceivedAt : Int := now + (-5) * Minute
  let s2 : State := { s1 with announcements := gcLoop minReceivedAt iterGc s1.announcements }
  writeOutputFile iterW s2

/-- One iteration of the loop of `collect`. A `range` over a map may yield its
entries in any order, so every permutation of the entries is admitted. -/
inductive Step : State → Event → State → Prop where
  | announcement (s : State) (a : serviceAnnouncement)
      (iter : List (String × serviceAnnouncement))
      (hiter : iter.Perm (mapAssign s.announcements a.SourceHost a)) :
      Step s (Event.announcement a) (onAnnouncement iter s a)
  | tick (s : State) (now : Int) (iterGc iterW : List (String × serviceAnnouncement))
      (hgc : iterGc.Perm s.announcements)
      (hw : iterW.Perm (gcLoop (now + (-5) * Minute) iterGc s.announcements)) :
      Step s (Event.tick now) (onTick iterGc iterW s now)

/-- Finitely many iterations of the loop, one per event. -/
inductive Run : State → List Event → State → Prop where
  | done (s : State) : Run s [] s
  | next (s t u : State) (e : Event) (es : List Event)
      (hstep : Step s e t) (hrest : Run t es u) : Run s (e :: es) u

/-- One iteration of the loop under the schedule in which every `range`
yields the entries in the order the association list stores them. -/
def collectStep (s : State) (e : Event) : State :=
  match e with
  | Event.announcement a =>
    onAnnouncement (mapAssign s.announcements a.SourceHost a) s a
  | Event.tick now =>
    onTick s.announcements (gcLoop (now + (-5) * Minute) s.announcements s.announcements) s now

/-- The loop of `collect` over a list of events, under that schedule. -/
def collectRun (s : State) (es : List Event) : State :=
  es.foldl collectStep s

/-- The text of a JSON array whose elements are encoded `serviceSpec`
objects. -/
def IsServiceSpecArray (data : String) : Prop :=
  ∃ l : List serviceSpec, data = String.mk ('[' :: (commaSep (l.map encodeServiceSpec) ++ [']']))

/-- The output file holds what `writeOutputFile` writes for the current map
under some iteration order, and that was the last write. -/
def InSync (s : State) : Prop :=
  ∃ iter : List (String × serviceAnnouncement),
    iter.Perm s.announcements
      ∧ s.outputFile = some (jsonMarshal (allServices iter))
      ∧ (writesOf s.trace).getLast? = some (jsonMarshal (allServices iter))

/-- A slice built by appending to the nil slice is nil exactly when it has no
element. -/
def Tight {α : Type} (s : Slice α) : Prop := s = Slice.nil ∨ s.toList ≠ []

/-- The keys `gcLoop` deletes: the hosts of the entries of `iter` received
before `minReceivedAt`. -/
def staleKeys (minReceivedAt : Int) (iter : List (String × serviceAnnouncement)) :
    List String :=
  (iter.filter (fun kv => decide (kv.2.ReceivedAt < minReceivedAt))).map Prod.fst

/-- The effect of one event on the map alone; for a tick, the entries not
received before the cutoff are kept. -/
def storeStep (m : Store) : Event → Store
  | Event.announcement a => mapAssign m a.SourceHost a
  | Event.tick now => m.filter (fun kv => decide (¬ kv.2.ReceivedAt < now + (-5) * Minute))

/-- The effect of a list of events on the map alone. -/
def storeRun (m : Store) (es : List Event) : Store :=
  es.foldl storeStep m

/-! ## The end-to-end scenario of the specification -/

/-- The announcement of host A, received at t = 0, decoded from
`[{"targets":["a:9100"],"labels":{}}]`. -/
def annA : serviceAnnouncement :=
  { SourceHost := "host-a", ReceivedAt := 0,
    Services := Slice.mk [{ Targets := Slice.mk ["a:9100"], Labels := StringMap.mk [] }] }

/-- An announcement of host B, received `sec` seconds after the start, decoded
from `[{"targets":["b:9100"],"labels":{}}]`. -/
def annB (sec : Int) : serviceAnnouncement :=
  { SourceHost := "host-b", ReceivedAt := sec * Second,
    Services := Slice.mk [{ Targets := Slice.mk ["b:9100"], Labels := StringMap.mk [] }] }

/-- The events up to t = 35 s: A announces at 0, B at 10 s, first tick at
30 s. -/
def eventsUntil35 : List Event :=
  [Event.announcement annA, Event.announcement (annB 10), Event.tick (30 * Second)]

/-- The events after t = 35 s up to t = 400 s when neither host sends
anything more: the ticks at 60 s, 90 s, ..., 390 s. -/
def silentUntil400 : List Event :=
  (List.range 12).map (fun k => Event.tick ((60 + 30 * (k : Int)) * Second))

/-- The events after t = 35 s up to t = 400 s when B runs the loop of
`announce` (send, sleep 30 seconds, repeat) and A sends nothing more: B's
announcements at 40 s, 70 s, ..., 370 s, each followed by the tick 20 s
later. -/
def reannouncingUntil400 : List Event :=
  (List.range 12).flatMap (fun k =>
    [Event.announcement (annB (40 + 30 * (k : Int))),
     Event.tick ((60 + 30 * (k : Int)) * Second)])

/-- The output file content that holds exactly the service of A. -/
def jsonA : String := "[\x7b\"targets\":[\"a:9100\"],\"labels\":\x7b\x7d\x7d]"

/-- The output file content that holds exactly the service of B. -/
def jsonB : String := "[\x7b\"targets\":[\"b:9100\"],\"labels\":\x7b\x7d\x7d]"

/-- The output file content with the service of A, then the one of B. -/
def jsonAB : String :=
  "[\x7b\"targets\":[\"a:9100\"],\"labels\":\x7b\x7d\x7d,\x7b\"targets\":[\"b:9100\"],\"labels\":\x7b\x7d\x7d]"

/-- The output file content with the service of B, then the one of A. -/
def jsonBA : String :=
  "[\x7b\"targets\":[\"b:9100\"],\"labels\":\x7b\x7d\x7d,\x7b\"targets\":[\"a:9100\"],\"labels\":\x7b\x7d\x7d]"

/-! ## Lemmas on slices and on the flattening loop -/

theorem goAppend_toList {α : Type} (s t : Slice α) :
    (goAppend s t).toList = s.toList ++ t.toList := by
  unfold goAppend
  cases h : t.toList with
  | nil => simp
  | cons x xs => simp [Slice.toList]

theorem goAppend_tight {α : Type} (s t : Slice α) (hs : Tight s) : Tight (goAppend s t) := by
  unfold goAppend
  cases h : t.toList with
  | nil => simpa using hs
  | cons x xs => right; simp [Slice.toList]

theorem foldl_goAppend_toList (iter : List (String × serviceAnnouncement))
    (acc : Slice serviceSpec) :
    (iter.foldl (fun acc kv => goAppend acc kv.2.Services) acc).toList
      = acc.toList ++ (iter.map (fun kv => kv.2.Services.toList)).flatten := by
  induction iter generalizing acc with
  | nil => simp
  | cons kv rest ih => simp [ih, goAppend_toList, List.append_assoc]

theorem foldl_goAppend_tight (iter : List (String × serviceAnnouncement))
    (acc : Slice serviceSpec) (hacc : Tight acc) :
    Tight (iter.foldl (fun acc kv => goAppend acc kv.2.Services) acc) := by
  induction iter generalizing acc with
  | nil => simpa using hacc
  | cons kv rest ih => exact ih _ (goAppend_tight _ _ hacc)

theorem allServices_toList (iter : List (String × serviceAnnouncement)) :
    (allServices iter).toList = (iter.map (fun kv => kv.2.Services.toList)).flatten := by
  simpa [allServices, Slice.toList] using foldl_goAppend_toList iter Slice.nil

theorem allServices_tight (iter : List (String × serviceAnnouncement)) :
    Tight (allServices iter) :=
  foldl_goAppend_tight iter Slice.nil (Or.inl rfl)

theorem allServices_eq_nil (iter : List (String × serviceAnnouncement))
    (h : ∀ kv ∈ iter, kv.2.Services.toList = []) : allServices iter = Slice.nil := by
  rcases allServices_tight iter with h0 | h0
  · exact h0
  · exfalso
    apply h0
    rw [allServices_toList]
    simp only [List.flatten_eq_nil_iff, List.mem_map]
    rintro l ⟨kv, hkv, rfl⟩
    exact h kv hkv

theorem allServices_eq_mk (iter : List (String × serviceAnnouncement))
    (h : ∃ kv ∈ iter, kv.2.Services.toList ≠ []) :
    allServices iter = Slice.mk ((iter.map (fun kv => kv.2.Services.toList)).flatten) := by
  have hl := allServices_toList iter
  cases hs : allServices iter with
  | nil =>
    rw [hs] at hl
    obtain ⟨kv, hkv, hne⟩ := h
    exfalso
    apply hne
    have : (iter.map (fun kv => kv.2.Services.toList)).flatten = [] := by
      simpa [Slice.toList] using hl.symm
    rw [List.flatten_eq_nil_iff] at this
    exact this _ (List.mem_map_of_mem _ hkv)
  | mk l =>
    rw [hs] at hl
    have hl2 : l = (iter.map (fun kv => kv.2.Services.toList)).flatten := hl
    rw [hl2]

/-! ## Lemmas on the announcement map -/

theorem mapLookup_mapAssign_self (m : Store) (k : String) (v : serviceAnnouncement) :
    mapLookup (mapAssign m k v) k = some v := by
  induction m with
  | nil => simp [mapAssign, mapLookup]
  | cons kv rest ih =>
    obtain ⟨k', v'⟩ := kv
    by_cases h : k' = k
    · simp [mapAssign, mapLookup, h]
    · simp [mapAssign, mapLookup, h, ih]

theorem mapLookup_mapAssign_ne (m : Store) (k k2 : String) (v : serviceAnnouncement)
    (hne : k2 ≠ k) : mapLookup (mapAssign m k v) k2 = mapLookup m k2 := by
  induction m with
  | nil => simp [mapAssign, mapLookup, Ne.symm hne]
  | cons kv rest ih =>
    obtain ⟨k', v'⟩ := kv
    by_cases h : k' = k
    · subst h
      simp [mapAssign, mapLookup, Ne.symm hne]
    · by_cases h2 : k' = k2
      · subst h2
        simp [mapAssign, mapLookup, h]
      · simp [mapAssign, mapLookup, h, h2, ih]

theorem mapAssign_mapAssign (m : Store) (k : String) (v1 v2 : serviceAnnouncement) :
    mapAssign (mapAssign m k v1) k v2 = mapAssign m k v2 := by
  induction m with
  | nil => simp [mapAssign]
  | cons kv rest ih =>
    obtain ⟨k', v'⟩ := kv
    by_cases h : k' = k
    · simp [mapAssign, h]
    · simp [mapAssign, h, ih]

theorem mem_mapAssign (m : Store) (k : String) (v : serviceAnnouncement)
    (kv : String × serviceAnnouncement) (hmem : kv ∈ mapAssign m k v) :
    kv = (k, v) ∨ kv ∈ m := by
  induction m with
  | nil => left; simpa [mapAssign] using hmem
  | cons e rest ih =>
    obtain ⟨k', v'⟩ := e
    by_cases h : k' = k
    · simp only [mapAssign, h, if_true, List.mem_cons] at hmem
      rcases hmem with h1 | h1
      · exact Or.inl h1
      · exact Or.inr (List.mem_cons_of_mem _ h1)
    · simp only [mapAssign, h, if_false, List.mem_cons] at hmem
      rcases hmem with h1 | h1
      · right
        subst h1
        exact List.mem_cons_self _ _
      · rcases ih h1 with h2 | h2
        · exact Or.inl h2
        · exact Or.inr (List.mem_cons_of_mem _ h2)

theorem keys_mapAssign (m : Store) (k : String) (v : serviceAnnouncement) :
    (mapAssign m k v).map Prod.fst
      = if k ∈ m.map Prod.fst then m.map Prod.fst else m.map Prod.fst ++ [k] := by
  induction m with
  | nil => simp [mapAssign]
  | cons e rest ih =>
    obtain ⟨k', v'⟩ := e
    by_cases h : k' = k
    · subst h
      simp [mapAssign]
    · have h' : ¬ k = k' := fun e => h e.symm
      by_cases hmem : k ∈ rest.map Prod.fst
      · simp only [mapAssign, h, if_false, List.map_cons, ih, hmem, if_true, List.mem_cons,
          or_true]
      · simp only [mapAssign, h, if_false, List.map_cons, ih, hmem, List.mem_cons, h',
          or_self, List.cons_append]

theorem WF_nil : WF [] := by simp [WF]

theorem WF_mapAssign (m : Store) (k : String) (v : serviceAnnouncement) (hwf : WF m) :
    WF (mapAssign m k v) := by
  unfold WF at *
  rw [keys_mapAssign]
  by_cases hmem : k ∈ m.map Prod.fst
  · simpa [hmem] using hwf
  · simp only [hmem, if_false]
    rw [List.nodup_append]
    refine ⟨hwf, List.nodup_singleton k, ?_⟩
    intro a ha hb
    rw [List.mem_singleton] at hb
    subst hb
    exact hmem ha

theorem WF_filter (m : Store) (p : String × serviceAnnouncement → Bool) (hwf : WF m) :
    WF (m.filter p) :=
  List.Nodup.sublist (List.Sublist.map Prod.fst (List.filter_sublist m)) hwf

theorem mem_of_mapLookup (m : Store) (k : String) (v : serviceAnnouncement)
    (h : mapLookup m k = some v) : (k, v) ∈ m := by
  induction m with
  | nil => simp [mapLookup] at h
  | cons e rest ih =>
    obtain ⟨k', v'⟩ := e
    by_cases hk : k' = k
    · subst hk
      simp only [mapLookup, if_true, Option.some.injEq] at h
      subst h
      exact List.mem_cons_self _ _
    · simp only [mapLookup, hk, if_false] at h
      exact List.mem_cons_of_mem _ (ih h)

theorem mapLookup_of_mem (m : Store) (k : String) (v : serviceAnnouncement)
    (hwf : WF m) (h : (k, v) ∈ m) : mapLookup m k = some v := by
  induction m with
  | nil => simp at h
  | cons e rest ih =>
    obtain ⟨k', v'⟩ := e
    have hnd : k' ∉ rest.map Prod.fst ∧ (rest.map Prod.fst).Nodup := by
      simpa [WF] using hwf
    rcases List.mem_cons.mp h with h1 | h1
    · have hk : k' = k := (congrArg Prod.fst h1).symm
      have hv : v' = v := (congrArg Prod.snd h1).symm
      simp [mapLookup, hk, hv]
    · by_cases hk : k' = k
      · exfalso
        apply hnd.1
        rw [hk]
        exact List.mem_map_of_mem Prod.fst h1
      · simp only [mapLookup, hk, if_false]
        exact ih hnd.2 h1

theorem mapLookup_eq_none_iff (m : Store) (k : String) :
    mapLookup m k = none ↔ k ∉ m.map Prod.fst := by
  induction m with
  | nil => simp [mapLookup]
  | cons e rest ih =>
    obtain ⟨k', v'⟩ := e
    by_cases hk : k' = k
    · simp [mapLookup, hk]
    · have hk' : ¬ k = k' := fun e => hk e.symm
      simp [mapLookup, hk, hk', ih]

theorem gcLoop_eq_filter_keys (c : Int) (iter : List (String × serviceAnnouncement))
    (m : Store) :
    gcLoop c iter m = m.filter (fun kv => decide (kv.1 ∉ staleKeys c iter)) := by
  induction iter generalizing m with
  | nil => simp [gcLoop, staleKeys]
  | cons e rest ih =>
    have hunf : gcLoop c (e :: rest) m
        = gcLoop c rest (if e.2.ReceivedAt < c then mapDelete m e.1 else m) := by
      simp [gcLoop]
    rw [hunf, ih]
    by_cases hold : e.2.ReceivedAt < c
    · simp only [hold, if_true, mapDelete, List.filter_filter]
      apply List.filter_congr
      intro x _
      rw [Bool.eq_iff_iff]
      simp only [staleKeys, List.filter_cons, hold, decide_True, if_true, List.map_cons,
        List.mem_cons, Bool.and_eq_true, decide_eq_true_eq, not_or, ne_eq, decide_not]
      simp only [Bool.not_eq_true', decide_eq_false_iff_not]
      tauto
    · simp only [hold, if_false]
      apply List.filter_congr
      intro x _
      simp [staleKeys, List.filter_cons, hold]

/-- With one entry per key, and whatever the iteration order, the
garbage-collection loop keeps exactly the entries not received before the
cutoff. -/
theorem gcLoop_eq_filter (c : Int) (iter : List (String × serviceAnnouncement))
    (m : Store) (hwf : WF m) (hiter : iter.Perm m) :
    gcLoop c iter m = m.filter (fun kv => decide (¬ kv.2.ReceivedAt < c)) := by
  rw [gcLoop_eq_filter_keys]
  apply List.filter_congr
  intro x hx
  have key : x.1 ∈ staleKeys c iter ↔ x.2.ReceivedAt < c := by
    constructor
    · intro h
      simp only [staleKeys, List.mem_map, List.mem_filter, decide_eq_true_eq] at h
      obtain ⟨y, ⟨hy, hold⟩, hyk⟩ := h
      have hym : y ∈ m := hiter.subset hy
      have h1 : mapLookup m x.1 = some x.2 := mapLookup_of_mem m x.1 x.2 hwf hx
      have h2 : mapLookup m x.1 = some y.2 := by
        apply mapLookup_of_mem m x.1 y.2 hwf
        rw [← hyk]
        exact hym
      have : x.2 = y.2 := by
        rw [h1] at h2
        exact Option.some.inj h2
      rw [this]
      exact hold
    · intro h
      simp only [staleKeys, List.mem_map, List.mem_filter, decide_eq_true_eq]
      exact ⟨x, ⟨hiter.symm.subset hx, h⟩, rfl⟩
  by_cases hold : x.2.ReceivedAt < c
  · simp [hold, key.mpr hold]
  · have : x.1 ∉ staleKeys c iter := fun h => hold (key.mp h)
    simp [hold, this]

/-! ## Lemmas on the loop of `collect` -/

theorem writesOf_append (t1 t2 : List Effect) :
    writesOf (t1 ++ t2) = writesOf t1 ++ writesOf t2 := by
  induction t1 with
  | nil => simp [writesOf]
  | cons e rest ih => cases e <;> simp [writesOf, ih]

theorem onAnnouncement_announcements (iter : List (String × serviceAnnouncement))
    (s : State) (a : serviceAnnouncement) :
    (onAnnouncement iter s a).announcements = mapAssign s.announcements a.SourceHost a := by
  unfold onAnnouncement
  cases h : s.canWriteOutputFile <;> simp [h, writeOutputFile, ioutilWriteFile]

theorem onAnnouncement_gate (iter : List (String × serviceAnnouncement))
    (s : State) (a : serviceAnnouncement) :
    (onAnnouncement iter s a).canWriteOutputFile = s.canWriteOutputFile := by
  unfold onAnnouncement
  cases h : s.canWriteOutputFile <;> simp [h, writeOutputFile, ioutilWriteFile]

theorem onAnnouncement_closed (iter : List (String × serviceAnnouncement))
    (s : State) (a : serviceAnnouncement) (h : s.canWriteOutputFile = false) :
    (onAnnouncement iter s a).trace = s.trace
      ∧ (onAnnouncement iter s a).outputFile = s.outputFile := by
  unfold onAnnouncement
  simp [h]

theorem onAnnouncement_open (iter : List (String × serviceAnnouncement))
    (s : State) (a : serviceAnnouncement) (h : s.canWriteOutputFile = true) :
    (onAnnouncement iter s a).trace
        = s.trace ++ [Effect.writeFile (jsonMarshal (allServices iter))]
      ∧ (onAnnouncement iter s a).outputFile = some (jsonMarshal (allServices iter)) := by
  unfold onAnnouncement
  simp [h, writeOutputFile, ioutilWriteFile]

theorem onTick_fields (iterGc iterW : List (String × serviceAnnouncement)) (s : State)
    (now : Int) :
    (onTick iterGc iterW s now).canWriteOutputFile = true
      ∧ (onTick iterGc iterW s now).announcements
          = gcLoop (now + (-5) * Minute) iterGc s.announcements
      ∧ (onTick iterGc iterW s now).trace
          = s.trace ++ [Effect.writeFile (jsonMarshal (allServices iterW))]
      ∧ (onTick iterGc iterW s now).outputFile = some (jsonMarshal (allServices iterW)) := by
  simp [onTick, writeOutputFile, ioutilWriteFile]

theorem step_announcement_inv (s t : State) (a : serviceAnnouncement)
    (h : Step s (Event.announcement a) t) :
    ∃ iter : List (String × serviceAnnouncement),
      iter.Perm (mapAssign s.announcements a.SourceHost a) ∧ t = onAnnouncement iter s a := by
  cases h
  next iter hiter => exact ⟨iter, hiter, rfl⟩

theorem step_tick_inv (s t : State) (now : Int) (h : Step s (Event.tick now) t) :
    ∃ iterGc iterW : List (String × serviceAnnouncement),
      iterGc.Perm s.announcements
        ∧ iterW.Perm (gcLoop (now + (-5) * Minute) iterGc s.announcements)
        ∧ t = onTick iterGc iterW s now := by
  cases h
  next iterGc iterW hgc hw => exact ⟨iterGc, iterW, hgc, hw, rfl⟩

theorem run_nil_inv (s u : State) (h : Run s [] u) : u = s := by
  cases h with
  | done => rfl

theorem run_cons_inv (s u : State) (e : Event) (es : List Event) (h : Run s (e :: es) u) :
    ∃ t, Step s e t ∧ Run t es u := by
  cases h with
  | next _ t _ _ _ hstep hrest => exact ⟨t, hstep, hrest⟩

theorem run_append (s t u : State) (es1 es2 : List Event) (h1 : Run s es1 t)
    (h2 : Run t es2 u) : Run s (es1 ++ es2) u := by
  induction h1 with
  | done s => simpa using h2
  | next s t1 u1 e es hstep _ ih => exact Run.next s t1 u e (es ++ es2) hstep (ih h2)

theorem run_append_inv (s u : State) (es1 es2 : List Event) (h : Run s (es1 ++ es2) u) :
    ∃ t, Run s es1 t ∧ Run t es2 u := by
  induction es1 generalizing s with
  | nil => exact ⟨s, Run.done s, by simpa using h⟩
  | cons e es ih =>
    obtain ⟨t1, hstep, hrest⟩ := run_cons_inv s u e (es ++ es2) h
    obtain ⟨t, h1, h2⟩ := ih t1 hrest
    exact ⟨t, Run.next s t1 t e es hstep h1, h2⟩

/-- The loop never blocks on the choice of an iteration order: the schedule of
`collectStep` is one of the admitted ones. -/
theorem step_collectStep (s : State) (e : Event) : Step s e (collectStep s e) := by
  cases e with
  | announcement a => exact Step.announcement s a _ (List.Perm.refl _)
  | tick now => exact Step.tick s now _ _ (List.Perm.refl _) (List.Perm.refl _)

theorem run_collectRun (s : State) (es : List Event) : Run s es (collectRun s es) := by
  induction es generalizing s with
  | nil => exact Run.done s
  | cons e es ih =>
    exact Run.next s (collectStep s e) _ e es (step_collectStep s e) (ih (collectStep s e))

theorem step_gate (s t : State) (e : Event) (h : Step s e t)
    (hopen : s.canWriteOutputFile = true) : t.canWriteOutputFile = true := by
  cases e with
  | announcement a =>
    obtain ⟨iter, _, ht⟩ := step_announcement_inv s t a h
    rw [ht, onAnnouncement_gate]; exact hopen
  | tick now =>
    obtain ⟨iterGc, iterW, _, _, ht⟩ := step_tick_inv s t now h
    rw [ht]; exact (onTick_fields iterGc iterW s now).1

theorem run_gate (s t : State) (es : List Event) (h : Run s es t)
    (hopen : s.canWriteOutputFile = true) : t.canWriteOutputFile = true := by
  induction h with
  | done s => exact hopen
  | next s t1 u e es hstep _ ih => exact ih (step_gate s t1 e hstep hopen)

theorem run_gate_of_tick (s t : State) (es : List Event) (h : Run s es t)
    (htick : ∃ now, Event.tick now ∈ es) : t.canWriteOutputFile = true := by
  induction h with
  | done s => simp at htick
  | next s t1 u e es hstep hrest ih =>
    obtain ⟨now, hmem⟩ := htick
    rcases List.mem_cons.mp hmem with h1 | h1
    · subst h1
      obtain ⟨iterGc, iterW, _, _, ht⟩ := step_tick_inv s t1 now hstep
      apply run_gate t1 u es hrest
      rw [ht]
      exact (onTick_fields iterGc iterW s now).1
    · exact ih ⟨now, h1⟩

theorem step_WF (s t : State) (e : Event) (h : Step s e t) (hwf : WF s.announcements) :
    WF t.announcements := by
  cases e with
  | announcement a =>
    obtain ⟨iter, _, ht⟩ := step_announcement_inv s t a h
    rw [ht, onAnnouncement_announcements]
    exact WF_mapAssign _ _ _ hwf
  | tick now =>
    obtain ⟨iterGc, iterW, hgc, _, ht⟩ := step_tick_inv s t now h
    rw [ht, (onTick_fields iterGc iterW s now).2.1, gcLoop_eq_filter _ _ _ hwf hgc]
    exact WF_filter _ _ hwf

theorem run_WF (s t : State) (es : List Event) (h : Run s es t) (hwf : WF s.announcements) :
    WF t.announcements := by
  induction h with
  | done s => exact hwf
  | next s t1 u e es hstep _ ih => exact ih (step_WF s t1 e hstep hwf)

theorem collectInit_announcements (stat : StatResult) (file : Option String) :
    (collectInit stat file).announcements = [] := by
  unfold collectInit
  by_cases h : stat = StatResult.notExist <;> simp [h, ioutilWriteFile]

theorem collectInit_WF (stat : StatResult) (file : Option String) :
    WF (collectInit stat file).announcements := by
  rw [collectInit_announcements]
  exact WF_nil

/-- While the gate is closed, announcements change neither the file nor the
trace, and leave the gate closed. -/
theorem run_announcements_closed (anns : List serviceAnnouncement) (s t : State)
    (h : Run s (anns.map Event.announcement) t) (hclosed : s.canWriteOutputFile = false) :
    t.canWriteOutputFile = false ∧ t.trace = s.trace ∧ t.outputFile = s.outputFile := by
  induction anns generalizing s with
  | nil =>
    have := run_nil_inv s t (by simpa using h)
    subst this
    exact ⟨hclosed, rfl, rfl⟩
  | cons a rest ih =>
    obtain ⟨t1, hstep, hrest⟩ := run_cons_inv s t (Event.announcement a)
      (rest.map Event.announcement) (by simpa using h)
    obtain ⟨iter, _, ht1⟩ := step_announcement_inv s t1 a hstep
    have hg : t1.canWriteOutputFile = false := by
      rw [ht1, onAnnouncement_gate]; exact hclosed
    have hc := onAnnouncement_closed iter s a hclosed
    obtain ⟨h1, h2, h3⟩ := ih t1 hrest hg
    refine ⟨h1, ?_, ?_⟩
    · rw [h2, ht1]; exact hc.1
    · rw [h3, ht1]; exact hc.2

/-! ## The claims -/

/-- C1, startup gate: when `collect` starts while the output file exists
(`os.Stat` succeeds, content `c`), then after any finite sequence of
announcements dequeued before the first tick, the empty one included, no
`WriteFile` has been performed, the file still holds `c` and the gate is
closed; a tick is then possible, and every way of handling it performs the
first write, which is the only one so far. -/
theorem startup_gate_closed_until_first_tick (c : String)
    (anns : List serviceAnnouncement) (s : State)
    (hrun : Run (collectInit StatResult.ok (some c)) (anns.map Event.announcement) s) :
    writesOf s.trace = [] ∧ s.outputFile = some c ∧ s.canWriteOutputFile = false
      ∧ ∀ now : Int, Step s (Event.tick now) (collectStep s (Event.tick now))
          ∧ ∀ t : State, Step s (Event.tick now) t →
              ∃ data : String, writesOf t.trace = [data] ∧ t.outputFile = some data := by
  have hinit : (collectInit StatResult.ok (some c)).canWriteOutputFile = false := by
    simp [collectInit]
  obtain ⟨hg, htr, hf⟩ := run_announcements_closed anns _ s hrun hinit
  have hw : writesOf s.trace = [] := by
    rw [htr]; simp [collectInit, writesOf]
  refine ⟨hw, ?_, hg, ?_⟩
  · rw [hf]; simp [collectInit]
  · intro now
    refine ⟨step_collectStep s _, ?_⟩
    intro t hstep
    obtain ⟨iterGc, iterW, _, _, ht⟩ := step_tick_inv s t now hstep
    obtain ⟨_, _, h3, h4⟩ := onTick_fields iterGc iterW s now
    refine ⟨jsonMarshal (allServices iterW), ?_, ?_⟩
    · rw [ht, h3, writesOf_append, hw]; simp [writesOf]
    · rw [ht, h4]

/-- C2, garbage collection: on a tick that reads the time `now`, with the
cutoff `now - 5 * Minute`, a host whose record was received strictly before
the cutoff is absent afterwards, a host whose record was received at or after
the cutoff (the cutoff itself included) keeps its record unchanged, and a host
absent before the tick is absent after it. -/
theorem gc_correctness (s t : State) (now : Int) (hwf : WF s.announcements)
    (hstep : Step s (Event.tick now) t) :
    (∀ (H : String) (r : serviceAnnouncement), mapLookup s.announcements H = some r →
        (r.ReceivedAt < now - 5 * Minute → mapLookup t.announcements H = none)
          ∧ (now - 5 * Minute ≤ r.ReceivedAt → mapLookup t.announcements H = some r))
      ∧ ∀ H : String, mapLookup s.announcements H = none →
          mapLookup t.announcements H = none := by
  obtain ⟨iterGc, iterW, hgc, _, ht⟩ := step_tick_inv s t now hstep
  have hcut : now + (-5) * Minute = now - 5 * Minute := by ring
  have hann : t.announcements
      = s.announcements.filter (fun kv => decide (¬ kv.2.ReceivedAt < now - 5 * Minute)) := by
    rw [ht, (onTick_fields iterGc iterW s now).2.1, gcLoop_eq_filter _ _ _ hwf hgc, hcut]
  have hwft : WF t.announcements := by
    rw [hann]; exact WF_filter _ _ hwf
  refine ⟨?_, ?_⟩
  · intro H r hlook
    have hmem : (H, r) ∈ s.announcements := mem_of_mapLookup _ _ _ hlook
    constructor
    · intro hold
      rw [mapLookup_eq_none_iff, hann]
      intro hk
      obtain ⟨kv, hkv, hkey⟩ := List.mem_map.mp hk
      obtain ⟨hkvm, hkeep⟩ := List.mem_filter.mp hkv
      have hkv2 : mapLookup s.announcements H = some kv.2 := by
        apply mapLookup_of_mem _ _ _ hwf
        rw [← hkey]; exact hkvm
      rw [hlook] at hkv2
      have hr : r = kv.2 := Option.some.inj hkv2
      rw [← hr] at hkeep
      simp only [decide_eq_true_eq] at hkeep
      exact hkeep hold
    · intro hfresh
      apply mapLookup_of_mem _ _ _ hwft
      rw [hann]
      apply List.mem_filter.mpr
      refine ⟨hmem, ?_⟩
      simp only [decide_eq_true_eq, not_lt]
      exact hfresh
  · intro H hnone
    rw [mapLookup_eq_none_iff] at hnone ⊢
    intro hk
    apply hnone
    rw [hann] at hk
    exact (List.Sublist.map Prod.fst (List.filter_sublist s.announcements)).subset hk

/-- C3, last write wins: when an announcement `r` is dequeued, with the gate
open or closed, the map afterwards holds exactly `r` for `r.SourceHost` and
every other host's entry is as before. If the state before came from
dequeuing an announcement `r1` of the same host, the map is the one that
results when `r1` was never sent, and every service in the flattening of the
map (for any iteration order) comes from `r` or from the record of another
host, none from the superseded record. -/
theorem last_write_wins (s t : State) (r : serviceAnnouncement)
    (hwf : WF s.announcements) (hstep : Step s (Event.announcement r) t) :
    mapLookup t.announcements r.SourceHost = some r
      ∧ (∀ h : String, h ≠ r.SourceHost →
          mapLookup t.announcements h = mapLookup s.announcements h)
      ∧ (∀ (s0 : State) (r1 : serviceAnnouncement), r1.SourceHost = r.SourceHost →
          Step s0 (Event.announcement r1) s →
          t.announcements = mapAssign s0.announcements r.SourceHost r)
      ∧ ∀ iter : List (String × serviceAnnouncement), iter.Perm t.announcements →
          ∀ x ∈ (allServices iter).toList,
            x ∈ r.Services.toList
              ∨ ∃ (h : String) (r2 : serviceAnnouncement), h ≠ r.SourceHost
                  ∧ mapLookup s.announcements h = some r2 ∧ x ∈ r2.Services.toList := by
  obtain ⟨iter0, _, ht⟩ := step_announcement_inv s t r hstep
  have hann : t.announcements = mapAssign s.announcements r.SourceHost r := by
    rw [ht, onAnnouncement_announcements]
  have hwft : WF t.announcements := by
    rw [hann]; exact WF_mapAssign _ _ _ hwf
  have hself : mapLookup t.announcements r.SourceHost = some r := by
    rw [hann]; exact mapLookup_mapAssign_self _ _ _
  refine ⟨hself, ?_, ?_, ?_⟩
  · intro h hne
    rw [hann]; exact mapLookup_mapAssign_ne _ _ _ _ hne
  · intro s0 r1 hhost hstep0
    obtain ⟨iter1, _, hs⟩ := step_announcement_inv s0 s r1 hstep0
    rw [hann, hs, onAnnouncement_announcements, hhost, mapAssign_mapAssign]
  · intro iter hiter x hx
    rw [allServices_toList, List.mem_flatten] at hx
    obtain ⟨l, hl, hxl⟩ := hx
    obtain ⟨kv, hkv, rfl⟩ := List.mem_map.mp hl
    have hkvt : kv ∈ t.announcements := hiter.subset hkv
    by_cases hk : kv.1 = r.SourceHost
    · left
      have h1 : mapLookup t.announcements r.SourceHost = some kv.2 := by
        apply mapLookup_of_mem _ _ _ hwft
        rw [← hk]; exact hkvt
      rw [hself] at h1
      rw [Option.some.inj h1]
      exact hxl
    · right
      refine ⟨kv.1, kv.2, hk, ?_, hxl⟩
      apply mapLookup_of_mem _ _ _ hwf
      rw [hann] at hkvt
      rcases mem_mapAssign _ _ _ _ hkvt with h2 | h2
      · exact absurd (congrArg Prod.fst h2) hk
      · exact h2

/-- C4, flattening: for every map `m` and every iteration order `iter` over
it, the slice that `writeOutputFile` marshals and writes holds the
concatenation of the records' `Services` in that order of the hosts (each
host's sequence once, contiguous, in its own order); as a multiset it is the
sum over the hosts of `m` of their `Services`, and its length is the sum of
their lengths. -/
theorem flattening (m : Store) (iter : List (String × serviceAnnouncement))
    (hiter : iter.Perm m) :
    (∀ s : State, (writeOutputFile iter s).outputFile
        = some (jsonMarshal (allServices iter)))
      ∧ (allServices iter).toList = (iter.map (fun kv => kv.2.Services.toList)).flatten
      ∧ ((allServices iter).toList : Multiset serviceSpec)
          = (m.map (fun kv => (kv.2.Services.toList : Multiset serviceSpec))).sum
      ∧ (allServices iter).toList.length
          = (m.map (fun kv => kv.2.Services.toList.length)).sum := by
  have hperm : ((iter.map (fun kv => kv.2.Services.toList)).flatten).Perm
      ((m.map (fun kv => kv.2.Services.toList)).flatten) :=
    List.Perm.flatten (List.Perm.map _ hiter)
  have hsum : ∀ l : Store,
      (((l.map (fun kv => kv.2.Services.toList)).flatten : List serviceSpec)
          : Multiset serviceSpec)
        = (l.map (fun kv => (kv.2.Services.toList : Multiset serviceSpec))).sum := by
    intro l
    induction l with
    | nil => simp
    | cons e rest ih =>
      simp only [List.map_cons, List.flatten_cons, List.sum_cons]
      rw [← ih]
      rfl
  refine ⟨fun s => rfl, allServices_toList iter, ?_, ?_⟩
  · rw [allServices_toList, ← hsum]
    exact Quotient.sound hperm
  · rw [allServices_toList, hperm.length_eq, List.length_flatten, List.map_map]
    rfl

theorem collectInit_fresh (file : Option String) :
    collectInit StatResult.notExist file
      = { canWriteOutputFile := true, announcements := [], outputFile := some "[]",
          trace := [Effect.mkdirAll, Effect.writeFile "[]", Effect.goListen] } := by
  simp [collectInit, ioutilWriteFile]

/-- Whenever the gate is open after an iteration of the loop, that iteration
ended with a write of the map it left behind. -/
theorem step_inSync (s t : State) (e : Event) (h : Step s e t)
    (hopen : t.canWriteOutputFile = true) : InSync t := by
  cases e with
  | announcement a =>
    obtain ⟨iter, hiter, ht⟩ := step_announcement_inv s t a h
    have hs : s.canWriteOutputFile = true := by
      rw [ht, onAnnouncement_gate] at hopen; exact hopen
    obtain ⟨h1, h2⟩ := onAnnouncement_open iter s a hs
    refine ⟨iter, ?_, ?_, ?_⟩
    · rw [ht, onAnnouncement_announcements]; exact hiter
    · rw [ht, h2]
    · rw [ht, h1, writesOf_append]; simp [writesOf]
  | tick now =>
    obtain ⟨iterGc, iterW, _, hw, ht⟩ := step_tick_inv s t now h
    obtain ⟨_, h2, h3, h4⟩ := onTick_fields iterGc iterW s now
    refine ⟨iterW, ?_, ?_, ?_⟩
    · rw [ht, h2]; exact hw
    · rw [ht, h4]
    · rw [ht, h3, writesOf_append]; simp [writesOf]

theorem run_inSync (s t : State) (es : List Event) (h : Run s es t) (hne : es ≠ [])
    (hopen : t.canWriteOutputFile = true) : InSync t := by
  rcases List.eq_nil_or_concat es with h0 | ⟨es1, e, h1⟩
  · exact absurd h0 hne
  · subst h1
    rw [List.concat_eq_append] at h
    obtain ⟨t1, _, hlast⟩ := run_append_inv s t es1 [e] h
    obtain ⟨t2, hstep, hend⟩ := run_cons_inv t1 t e [] hlast
    have := run_nil_inv t2 t hend
    subst this
    exact step_inSync t1 t e hstep hopen

/-- C5, fresh-start initialization: when the output file does not exist at
startup, the startup code writes exactly the two characters `[]` (its only
write), after creating the directory and before starting the listener, and
leaves the gate open and the map empty. Consequently the first announcement
dequeued after such a start, with or without ticks before it, is followed at
once by a write of the snapshot, and such a step exists. -/
theorem fresh_start_initialization :
    (collectInit StatResult.notExist none).trace
        = [Effect.mkdirAll, Effect.writeFile "[]", Effect.goListen]
      ∧ ("[]" : String).data = ['[', ']']
      ∧ (collectInit StatResult.notExist none).outputFile = some "[]"
      ∧ (collectInit StatResult.notExist none).canWriteOutputFile = true
      ∧ (collectInit StatResult.notExist none).announcements = []
      ∧ ∀ (ticks : List Int) (s : State),
          Run (collectInit StatResult.notExist none) (ticks.map Event.tick) s →
          ∀ a : serviceAnnouncement,
            Step s (Event.announcement a) (collectStep s (Event.announcement a))
              ∧ ∀ t : State, Step s (Event.announcement a) t →
                  ∃ iter : List (String × serviceAnnouncement),
                    iter.Perm t.announcements
                      ∧ t.trace = s.trace ++ [Effect.writeFile (jsonMarshal (allServices iter))]
                      ∧ t.outputFile = some (jsonMarshal (allServices iter)) := by
  rw [collectInit_fresh]
  refine ⟨rfl, rfl, rfl, rfl, rfl, ?_⟩
  intro ticks s hrun a
  refine ⟨step_collectStep s _, ?_⟩
  intro t hstep
  have hs : s.canWriteOutputFile = true := run_gate _ s _ hrun rfl
  obtain ⟨iter, hiter, ht⟩ := step_announcement_inv s t a hstep
  obtain ⟨h1, h2⟩ := onAnnouncement_open iter s a hs
  refine ⟨iter, ?_, ?_, ?_⟩
  · rw [ht, onAnnouncement_announcements]; exact hiter
  · rw [ht, h1]
  · rw [ht, h2]

/-- C6, evaluated where it fails: for the empty map, and for any map whose
records all have no service, `allServices` is still the nil slice when it is
marshalled, so `writeOutputFile` writes the four characters `null`; this is
what the first tick after a fresh start without announcements writes over the
initial `[]`. The text `null` is not a JSON array, while `[]` is one. -/
theorem empty_store_written_as_null :
    (∀ s : State, (writeOutputFile [] s).outputFile = some "null")
      ∧ (∀ (iter : List (String × serviceAnnouncement)) (s : State),
          (∀ kv ∈ iter, kv.2.Services.toList = []) →
          (writeOutputFile iter s).outputFile = some "null")
      ∧ (collectStep (collectInit StatResult.notExist none)
          (Event.tick (30 * Second))).outputFile = some "null"
      ∧ (∀ (now : Int) (t : State),
          Step (collectInit StatResult.notExist none) (Event.tick now) t →
          t.outputFile = some "null")
      ∧ ¬ IsServiceSpecArray "null"
      ∧ IsServiceSpecArray "[]" := by
  have hgen : ∀ (iter : List (String × serviceAnnouncement)) (s : State),
      (∀ kv ∈ iter, kv.2.Services.toList = []) →
      (writeOutputFile iter s).outputFile = some "null" := by
    intro iter s h
    simp [writeOutputFile, ioutilWriteFile, allServices_eq_nil iter h, jsonMarshal]
  refine ⟨fun s => hgen [] s (by simp), hgen, ?_, ?_, ?_, ?_⟩
  · rw [collectInit_fresh]
    simp [collectStep, onTick, gcLoop, writeOutputFile, ioutilWriteFile, allServices,
      jsonMarshal]
  · intro now t hstep
    obtain ⟨iterGc, iterW, hgc, hw, ht⟩ := step_tick_inv _ t now hstep
    rw [collectInit_announcements] at hgc hw
    have hgc0 : iterGc = [] := List.Perm.eq_nil hgc
    subst hgc0
    have hw0 : iterW = [] := List.Perm.eq_nil (by simpa [gcLoop] using hw)
    subst hw0
    rw [ht, (onTick_fields [] [] _ now).2.2.2]
    simp [allServices, jsonMarshal]
  · rintro ⟨l, hl⟩
    have := congrArg String.data hl
    simp at this
  · exact ⟨[], by decide⟩

/-- The complement of the failing case of C6: as soon as one record has a
service, what `writeOutputFile` writes is a JSON array of `serviceSpec`
objects, one element per service of the flattening. -/
theorem nonempty_store_written_as_array (iter : List (String × serviceAnnouncement))
    (s : State) (h : ∃ kv ∈ iter, kv.2.Services.toList ≠ []) :
    ∃ data : String, (writeOutputFile iter s).outputFile = some data
      ∧ IsServiceSpecArray data := by
  refine ⟨jsonMarshal (allServices iter), rfl, ?_⟩
  rw [allServices_eq_mk iter h]
  exact ⟨_, rfl⟩

/-- C8, unconditional write on tick: a tick, whatever the gate was before it
and whether or not it removes anything, appends exactly one `WriteFile` to the
trace, and such a step exists. What is written is the snapshot, under some
iteration order, of the map left by the garbage collection of the same tick:
every service in it comes from a record that was in the map before the tick
and was not received before the cutoff. -/
theorem tick_writes_once (s t : State) (now : Int) (hwf : WF s.announcements)
    (hstep : Step s (Event.tick now) t) :
    Step s (Event.tick now) (collectStep s (Event.tick now))
      ∧ t.announcements
          = s.announcements.filter (fun kv => decide (¬ kv.2.ReceivedAt < now - 5 * Minute))
      ∧ ∃ iter : List (String × serviceAnnouncement),
          iter.Perm t.announcements
            ∧ t.trace = s.trace ++ [Effect.writeFile (jsonMarshal (allServices iter))]
            ∧ writesOf t.trace = writesOf s.trace ++ [jsonMarshal (allServices iter)]
            ∧ t.outputFile = some (jsonMarshal (allServices iter))
            ∧ ∀ x ∈ (allServices iter).toList,
                ∃ (h : String) (r : serviceAnnouncement),
                  mapLookup s.announcements h = some r
                    ∧ ¬ r.ReceivedAt < now - 5 * Minute ∧ x ∈ r.Services.toList := by
  obtain ⟨iterGc, iterW, hgc, hw, ht⟩ := step_tick_inv s t now hstep
  obtain ⟨_, h2, h3, h4⟩ := onTick_fields iterGc iterW s now
  have hcut : now + (-5) * Minute = now - 5 * Minute := by ring
  have hann : t.announcements
      = s.announcements.filter (fun kv => decide (¬ kv.2.ReceivedAt < now - 5 * Minute)) := by
    rw [ht, h2, gcLoop_eq_filter _ _ _ hwf hgc, hcut]
  refine ⟨step_collectStep s _, hann, iterW, ?_, ?_, ?_, ?_, ?_⟩
  · rw [ht, h2]; exact hw
  · rw [ht, h3]
  · rw [ht, h3, writesOf_append]; simp [writesOf]
  · rw [ht, h4]
  · intro x hx
    rw [allServices_toList, List.mem_flatten] at hx
    obtain ⟨l, hl, hxl⟩ := hx
    obtain ⟨kv, hkv, rfl⟩ := List.mem_map.mp hl
    have hkvt : kv ∈ t.announcements := by
      rw [ht, h2]; exact hw.subset hkv
    rw [hann] at hkvt
    obtain ⟨hmem, hkeep⟩ := List.mem_filter.mp hkvt
    refine ⟨kv.1, kv.2, mapLookup_of_mem _ _ _ hwf hmem, ?_, hxl⟩
    simpa using hkeep

/-- C9, the gate only opens: in a run of `collect` from either startup case,
once the gate has been opened (by the fresh-start initialization or by a
tick among the events so far) it is open, it is open after every further
sequence of events, a further tick leaves it as it is, and every announcement
dequeued from then on is followed at once by a write of the snapshot. -/
theorem gate_only_opens (stat : StatResult) (file : Option String) (es : List Event)
    (s : State) (hrun : Run (collectInit stat file) es s)
    (hopened : stat = StatResult.notExist ∨ ∃ now : Int, Event.tick now ∈ es) :
    s.canWriteOutputFile = true
      ∧ (∀ (es2 : List Event) (u : State), Run s es2 u → u.canWriteOutputFile = true)
      ∧ (∀ (now : Int) (u : State), Step s (Event.tick now) u →
          u.canWriteOutputFile = s.canWriteOutputFile)
      ∧ ∀ a : serviceAnnouncement,
          Step s (Event.announcement a) (collectStep s (Event.announcement a))
            ∧ ∀ u : State, Step s (Event.announcement a) u →
                ∃ iter : List (String × serviceAnnouncement),
                  iter.Perm u.announcements
                    ∧ u.trace = s.trace ++ [Effect.writeFile (jsonMarshal (allServices iter))]
                    ∧ u.outputFile = some (jsonMarshal (allServices iter)) := by
  have hs : s.canWriteOutputFile = true := by
    rcases hopened with h | h
    · subst h
      apply run_gate _ s es hrun
      rw [collectInit_fresh]
    · exact run_gate_of_tick _ s es hrun h
  refine ⟨hs, ?_, ?_, ?_⟩
  · intro es2 u hu
    exact run_gate s u es2 hu hs
  · intro now u hu
    rw [hs]
    exact step_gate s u _ hu hs
  · intro a
    refine ⟨step_collectStep s _, ?_⟩
    intro u hu
    obtain ⟨iter, hiter, ht⟩ := step_announcement_inv s u a hu
    obtain ⟨h1, h2⟩ := onAnnouncement_open iter s a hs
    refine ⟨iter, ?_, ?_, ?_⟩
    · rw [ht, onAnnouncement_announcements]; exact hiter
    · rw [ht, h1]
    · rw [ht, h2]

/-- C10, output in sync with the map: in every state reached by the loop of
`collect` from either startup case in which the gate is open, either no
event has been handled yet, the start was a fresh one, the map is empty and
the file holds the initial `[]`; or the last write, which is the content of
the file, is the marshalled slice `allServices iter` for an iteration order
`iter` of the current map, and the services in that slice are, up to the
order of the hosts, the concatenation of the `Services` of the map's
records. -/
theorem output_in_sync_when_gate_open (stat : StatResult) (file : Option String)
    (es : List Event) (s : State) (hrun : Run (collectInit stat file) es s)
    (hopen : s.canWriteOutputFile = true) :
    (es = [] ∧ stat = StatResult.notExist ∧ s.announcements = []
        ∧ s.outputFile = some "[]" ∧ (writesOf s.trace).getLast? = some "[]")
      ∨ ∃ iter : List (String × serviceAnnouncement),
          iter.Perm s.announcements
            ∧ s.outputFile = some (jsonMarshal (allServices iter))
            ∧ (writesOf s.trace).getLast? = some (jsonMarshal (allServices iter))
            ∧ (allServices iter).toList.Perm
                ((s.announcements.map (fun kv => kv.2.Services.toList)).flatten) := by
  by_cases hes : es = []
  · left
    subst hes
    have := run_nil_inv _ s hrun
    subst this
    by_cases hstat : stat = StatResult.notExist
    · subst hstat
      rw [collectInit_fresh]
      exact ⟨rfl, rfl, rfl, rfl, by simp [writesOf]⟩
    · exfalso
      simp [collectInit, hstat] at hopen
  · right
    obtain ⟨iter, h1, h2, h3⟩ := run_inSync _ s es hrun hes hopen
    refine ⟨iter, h1, h2, h3, ?_⟩
    rw [allServices_toList]
    exact List.Perm.flatten (List.Perm.map _ h1)


example : storeRun [] eventsUntil35 = [("host-a", annA), ("host-b", annB 10)] := by decide
example : storeRun [] (eventsUntil35 ++ silentUntil400) = [] := by decide
/-! ## The end-to-end scenario -/

theorem perm_pair {α : Type} (a b : α) (l : List α) (h : l.Perm [a, b]) :
    l = [a, b] ∨ l = [b, a] := by
  have hlen : l.length = 2 := by simpa using h.length_eq
  match l, hlen with
  | [x, y], _ =>
    have hx : x ∈ [a, b] := h.subset (List.mem_cons_self _ _)
    simp only [List.mem_cons, List.mem_singleton, List.not_mem_nil, or_false] at hx
    rcases hx with hx | hx
    · subst hx
      have h2 : [y].Perm [b] := (List.perm_cons x).mp h
      rw [List.perm_singleton] at h2
      left; rw [List.cons.inj h2 |>.1]
    · subst hx
      have h2 : [y].Perm [a] := (List.perm_cons x).mp (h.trans (List.Perm.swap x a []))
      rw [List.perm_singleton] at h2
      right; rw [List.cons.inj h2 |>.1]

theorem step_store (s t : State) (e : Event) (h : Step s e t) (hwf : WF s.announcements) :
    t.announcements = storeStep s.announcements e := by
  cases e with
  | announcement a =>
    obtain ⟨iter, _, ht⟩ := step_announcement_inv s t a h
    rw [ht, onAnnouncement_announcements]; rfl
  | tick now =>
    obtain ⟨iterGc, iterW, hgc, _, ht⟩ := step_tick_inv s t now h
    rw [ht, (onTick_fields iterGc iterW s now).2.1, gcLoop_eq_filter _ _ _ hwf hgc]; rfl

/-- The map after a run does not depend on the iteration orders. -/
theorem run_store (s t : State) (es : List Event) (h : Run s es t)
    (hwf : WF s.announcements) : t.announcements = storeRun s.announcements es := by
  induction h with
  | done s => rfl
  | next s t1 u e es hstep _ ih =>
    rw [ih (step_WF s t1 e hstep hwf), step_store s t1 e hstep hwf]; rfl

/-- After a run from startup that contains a tick, the file holds the
snapshot of the map the events produce, under some iteration order. -/
theorem run_output (stat : StatResult) (file : Option String) (es : List Event) (s : State)
    (hrun : Run (collectInit stat file) es s) (htick : ∃ now : Int, Event.tick now ∈ es) :
    ∃ iter : List (String × serviceAnnouncement),
      iter.Perm (storeRun [] es) ∧ s.outputFile = some (jsonMarshal (allServices iter)) := by
  have hne : es ≠ [] := by
    rintro rfl
    simp at htick
  obtain ⟨iter, h1, h2, _⟩ :=
    run_inSync _ s es hrun hne (run_gate_of_tick _ s es hrun htick)
  refine ⟨iter, ?_, h2⟩
  rw [run_store _ s es hrun (collectInit_WF stat file), collectInit_announcements] at h1
  exact h1

/-- C7 as stated, refuted: A announces at t = 0 and B at t = 10 s, nothing
else is sent, and the ticks come every 30 seconds. At the tick at 330 s the
cutoff is 30 s, so the record of B (received at 10 s) is evicted like the
one of A: after the ticks up to t = 400 s the map is empty and the output
file holds `null`, not the service of B. This holds for either startup case
and every iteration order. -/
theorem scenario_fails_when_B_announces_once :
    Run (collectInit StatResult.notExist none) (eventsUntil35 ++ silentUntil400)
        (collectRun (collectInit StatResult.notExist none) (eventsUntil35 ++ silentUntil400))
      ∧ (collectRun (collectInit StatResult.notExist none)
          (eventsUntil35 ++ silentUntil400)).announcements = []
      ∧ (collectRun (collectInit StatResult.notExist none)
          (eventsUntil35 ++ silentUntil400)).outputFile = some "null"
      ∧ (collectRun (collectInit StatResult.notExist none)
          (eventsUntil35 ++ silentUntil400)).outputFile ≠ some jsonB
      ∧ ∀ (stat : StatResult) (file : Option String) (s : State),
          Run (collectInit stat file) (eventsUntil35 ++ silentUntil400) s →
          s.outputFile = some "null" := by
  refine ⟨run_collectRun _ _, by decide, by decide, by decide, ?_⟩
  intro stat file s hrun
  obtain ⟨iter, h1, h2⟩ := run_output stat file _ s hrun ⟨30 * Second, by decide⟩
  have h0 : storeRun [] (eventsUntil35 ++ silentUntil400) = [] := by decide
  rw [h0] at h1
  have hnil : iter = [] := List.Perm.eq_nil h1
  subst hnil
  rw [h2]
  decide

/-- C7, amended: A announces at t = 0 and sends nothing more; B announces at
t = 10 s and, running the loop of `announce`, again every 30 seconds. For
either startup case and every iteration order, after the first tick (the
state at t = 35 s) the output file holds both services, in one or the other
order; after the events up to t = 400 s it holds exactly the service of B,
and so it does after B's next announcement at 400 s. -/
theorem scenario_when_B_keeps_announcing (stat : StatResult) (file : Option String)
    (s35 s400 : State) (h35 : Run (collectInit stat file) eventsUntil35 s35)
    (h400 : Run s35 reannouncingUntil400 s400) :
    (s35.outputFile = some jsonAB ∨ s35.outputFile = some jsonBA)
      ∧ s400.outputFile = some jsonB
      ∧ ∀ u : State, Step s400 (Event.announcement (annB 400)) u →
          u.outputFile = some jsonB := by
  have hfull : Run (collectInit stat file) (eventsUntil35 ++ reannouncingUntil400) s400 :=
    run_append _ s35 s400 _ _ h35 h400
  refine ⟨?_, ?_, ?_⟩
  · obtain ⟨iter, h1, h2⟩ := run_output stat file _ s35 h35 ⟨30 * Second, by decide⟩
    have h0 : storeRun [] eventsUntil35 = [("host-a", annA), ("host-b", annB 10)] := by
      decide
    rw [h0] at h1
    rcases perm_pair _ _ iter h1 with h | h
    · left; rw [h2, h]; decide
    · right; rw [h2, h]; decide
  · obtain ⟨iter, h1, h2⟩ := run_output stat file _ s400 hfull ⟨30 * Second, by decide⟩
    have h0 : storeRun [] (eventsUntil35 ++ reannouncingUntil400)
        = [("host-b", annB 370)] := by decide
    rw [h0] at h1
    rw [List.perm_singleton] at h1
    rw [h2, h1]; decide
  · intro u hu
    have hlast : Run (collectInit stat file)
        ((eventsUntil35 ++ reannouncingUntil400) ++ [Event.announcement (annB 400)]) u :=
      run_append _ s400 u _ _ hfull (Run.next s400 u u _ [] hu (Run.done u))
    obtain ⟨iter, h1, h2⟩ := run_output stat file _ u hlast ⟨30 * Second, by decide⟩
    have h0 : storeRun [] ((eventsUntil35 ++ reannouncingUntil400)
        ++ [Event.announcement (annB 400)]) = [("host-b", annB 400)] := by decide
    rw [h0] at h1
    rw [List.perm_singleton] at h1
    rw [h2, h1]; decide

/-! ## Instances of the theorems on concrete runs -/

/-- Restart with the file holding `jsonA`; A and B announce before the first
tick. -/
theorem startup_gate_closed_until_first_tick_witness :
    Run (collectInit StatResult.ok (some jsonA))
        ([annA, annB 10].map Event.announcement)
        (collectRun (collectInit StatResult.ok (some jsonA))
          ([annA, annB 10].map Event.announcement))
      ∧ writesOf (collectRun (collectInit StatResult.ok (some jsonA))
          ([annA, annB 10].map Event.announcement)).trace = []
      ∧ (collectRun (collectInit StatResult.ok (some jsonA))
          ([annA, annB 10].map Event.announcement)).outputFile = some jsonA :=
  ⟨run_collectRun _ _,
   (startup_gate_closed_until_first_tick jsonA [annA, annB 10] _ (run_collectRun _ _)).1,
   (startup_gate_closed_until_first_tick jsonA [annA, annB 10] _ (run_collectRun _ _)).2.1⟩

/-- The tick at 390 s on the map holding A (received at 0) and B (received at
370 s): A is evicted, B is kept. -/
theorem gc_correctness_witness :
    WF (collectRun (collectInit StatResult.ok (some jsonA))
          [Event.announcement annA, Event.announcement (annB 370)]).announcements
      ∧ Step
          (collectRun (collectInit StatResult.ok (some jsonA))
            [Event.announcement annA, Event.announcement (annB 370)])
          (Event.tick (390 * Second))
          (collectStep
            (collectRun (collectInit StatResult.ok (some jsonA))
              [Event.announcement annA, Event.announcement (annB 370)])
            (Event.tick (390 * Second)))
      ∧ mapLookup (collectStep
          (collectRun (collectInit StatResult.ok (some jsonA))
            [Event.announcement annA, Event.announcement (annB 370)])
          (Event.tick (390 * Second))).announcements "host-a" = none
      ∧ mapLookup (collectStep
          (collectRun (collectInit StatResult.ok (some jsonA))
            [Event.announcement annA, Event.announcement (annB 370)])
          (Event.tick (390 * Second))).announcements "host-b" = some (annB 370) :=
  ⟨by unfold WF; decide, step_collectStep _ _,
   ((gc_correctness
      (collectRun (collectInit StatResult.ok (some jsonA))
        [Event.announcement annA, Event.announcement (annB 370)])
      _ (390 * Second) (by unfold WF; decide) (step_collectStep _ _)).1
      "host-a" annA (by decide)).1 (by decide),
   ((gc_correctness
      (collectRun (collectInit StatResult.ok (some jsonA))
        [Event.announcement annA, Event.announcement (annB 370)])
      _ (390 * Second) (by unfold WF; decide) (step_collectStep _ _)).1
      "host-b" (annB 370) (by decide)).2 (by decide)⟩

/-- Host B announces at 10 s and again at 40 s: the map holds the second
record. -/
theorem last_write_wins_witness :
    WF (collectRun (collectInit StatResult.notExist none)
          [Event.announcement (annB 10)]).announcements
      ∧ Step
          (collectRun (collectInit StatResult.notExist none) [Event.announcement (annB 10)])
          (Event.announcement (annB 40))
          (collectStep
            (collectRun (collectInit StatResult.notExist none) [Event.announcement (annB 10)])
            (Event.announcement (annB 40)))
      ∧ mapLookup (collectStep
          (collectRun (collectInit StatResult.notExist none) [Event.announcement (annB 10)])
          (Event.announcement (annB 40))).announcements "host-b" = some (annB 40) :=
  ⟨by unfold WF; decide, step_collectStep _ _,
   (last_write_wins
      (collectRun (collectInit StatResult.notExist none) [Event.announcement (annB 10)])
      _ (annB 40) (by unfold WF; decide) (step_collectStep _ _)).1⟩

/-- The map of A and B, iterated with B first. -/
theorem flattening_witness :
    [("host-b", annB 10), ("host-a", annA)].Perm [("host-a", annA), ("host-b", annB 10)]
      ∧ (allServices [("host-b", annB 10), ("host-a", annA)]).toList.length
          = ([("host-a", annA), ("host-b", annB 10)].map
              (fun kv => kv.2.Services.toList.length)).sum :=
  ⟨List.Perm.swap _ _ _,
   (flattening [("host-a", annA), ("host-b", annB 10)]
      [("host-b", annB 10), ("host-a", annA)] (List.Perm.swap _ _ _)).2.2.2⟩

/-- The scenario on a restart, under the schedule of `collectRun`. -/
theorem scenario_when_B_keeps_announcing_witness :
    Run (collectInit StatResult.ok (some jsonA)) eventsUntil35
        (collectRun (collectInit StatResult.ok (some jsonA)) eventsUntil35)
      ∧ Run (collectRun (collectInit StatResult.ok (some jsonA)) eventsUntil35)
          reannouncingUntil400
          (collectRun (collectRun (collectInit StatResult.ok (some jsonA)) eventsUntil35)
            reannouncingUntil400)
      ∧ (collectRun (collectRun (collectInit StatResult.ok (some jsonA)) eventsUntil35)
          reannouncingUntil400).outputFile = some jsonB :=
  ⟨run_collectRun _ _, run_collectRun _ _,
   (scenario_when_B_keeps_announcing StatResult.ok (some jsonA) _ _
      (run_collectRun _ _) (run_collectRun _ _)).2.1⟩

/-- The tick at 390 s on the map holding A and B appends one write. -/
theorem tick_writes_once_witness :
    WF (collectRun (collectInit StatResult.notExist none)
          [Event.announcement annA, Event.announcement (annB 370)]).announcements
      ∧ Step
          (collectRun (collectInit StatResult.notExist none)
            [Event.announcement annA, Event.announcement (annB 370)])
          (Event.tick (390 * Second))
          (collectStep
            (collectRun (collectInit StatResult.notExist none)
              [Event.announcement annA, Event.announcement (annB 370)])
            (Event.tick (390 * Second)))
      ∧ (collectStep
          (collectRun (collectInit StatResult.notExist none)
            [Event.announcement annA, Event.announcement (annB 370)])
          (Event.tick (390 * Second))).announcements
        = (collectRun (collectInit StatResult.notExist none)
            [Event.announcement annA, Event.announcement (annB 370)]).announcements.filter
            (fun kv => decide (¬ kv.2.ReceivedAt < 390 * Second - 5 * Minute)) :=
  ⟨by unfold WF; decide, step_collectStep _ _,
   (tick_writes_once
      (collectRun (collectInit StatResult.notExist none)
        [Event.announcement annA, Event.announcement (annB 370)])
      _ (390 * Second) (by unfold WF; decide) (step_collectStep _ _)).2.1⟩

/-- A restart, then the events up to the first tick: the gate is open. -/
theorem gate_only_opens_witness :
    Run (collectInit StatResult.ok (some jsonA)) eventsUntil35
        (collectRun (collectInit StatResult.ok (some jsonA)) eventsUntil35)
      ∧ (StatResult.ok = StatResult.notExist
          ∨ ∃ now : Int, Event.tick now ∈ eventsUntil35)
      ∧ (collectRun (collectInit StatResult.ok (some jsonA))
          eventsUntil35).canWriteOutputFile = true :=
  ⟨run_collectRun _ _, Or.inr ⟨30 * Second, by decide⟩,
   (gate_only_opens StatResult.ok (some jsonA) eventsUntil35 _ (run_collectRun _ _)
      (Or.inr ⟨30 * Second, by decide⟩)).1⟩

/-- A restart, then the events up to the first tick: the file holds a
snapshot of the map. -/
theorem output_in_sync_when_gate_open_witness :
    Run (collectInit StatResult.ok (some jsonA)) eventsUntil35
        (collectRun (collectInit StatResult.ok (some jsonA)) eventsUntil35)
      ∧ (collectRun (collectInit StatResult.ok (some jsonA))
          eventsUntil35).canWriteOutputFile = true
      ∧ ((eventsUntil35 = [] ∧ StatResult.ok = StatResult.notExist
            ∧ (collectRun (collectInit StatResult.ok (some jsonA))
                eventsUntil35).announcements = []
            ∧ (collectRun (collectInit StatResult.ok (some jsonA))
                eventsUntil35).outputFile = some "[]"
            ∧ (writesOf (collectRun (collectInit StatResult.ok (some jsonA))
                eventsUntil35).trace).getLast? = some "[]")
          ∨ ∃ iter : List (String × serviceAnnouncement),
              iter.Perm (collectRun (collectInit StatResult.ok (some jsonA))
                  eventsUntil35).announcements
                ∧ (collectRun (collectInit StatResult.ok (some jsonA))
                    eventsUntil35).outputFile = some (jsonMarshal (allServices iter))
                ∧ (writesOf (collectRun (collectInit StatResult.ok (some jsonA))
                    eventsUntil35).trace).getLast? = some (jsonMarshal (allServices iter))
                ∧ (allServices iter).toList.Perm
                    (((collectRun (collectInit StatResult.ok (some jsonA))
                        eventsUntil35).announcements.map
                      (fun kv => kv.2.Services.toList)).flatten)) :=
  ⟨run_collectRun _ _, by decide,
   output_in_sync_when_gate_open StatResult.ok (some jsonA) eventsUntil35 _
     (run_collectRun _ _) (by decide)⟩

end SD
